import Mathlib

/-!
Verification of the Jotoba dictionary search core against its
natural-language specification.  The Rust sources are shallowly embedded:
strings become lists of characters (for the tag parser each element models
one byte, and all tag tokens are ASCII so bytes and characters coincide on
the domain of every theorem below), machine integers become `Nat`/`Int`,
`f32` similarity values become `Rat`, and fallible or panicking code
returns `Option`/`Except` (`none` models a Rust panic).
-/

namespace Jotoba

/-- Strings, modelled as lists of characters.  For the byte-level functions
of `query/parser/tags.rs` each element models one byte of the UTF-8
encoding; all tag tokens are ASCII, where bytes and characters coincide. -/
abbrev Str := List Char

/-- Search targets (subset of `types::jotoba::search::SearchTarget` used by
the tag parser). -/
inductive SearchTarget
  | Kanji
  | Sentences
  | Names
  | Words
deriving DecidableEq, Repr

/-- Word misc kind (only the variant produced by the tag parser). -/
inductive MiscKind
  | Abbreviation
deriving DecidableEq, Repr

/-- Opaque stand-in for `types::jotoba::words::part_of_speech::PosSimple`;
the tag parser only stores values obtained from an external `FromStr`
implementation, so the payload is left abstract. -/
structure PosSimple where
  code : Nat
deriving DecidableEq, Repr

/-- Query tags, from `search::query::Tag` (closed variant set listed in the
spec's data model). -/
inductive Tag
  | Hidden
  | IrregularIruEru
  | Jlpt (n : Nat)
  | GenkiLesson (n : Nat)
  | SearchType (t : SearchTarget)
  | PartOfSpeech (p : PosSimple)
  | MiscTag (m : MiscKind)
deriving DecidableEq, Repr

/-- Characters matched by the tag-token regex body `[a-zA-Z0-9-]`
(byte ranges of the ASCII classes). -/
def isTagChar (c : Char) : Bool :=
  (97 ≤ c.toNat && c.toNat ≤ 122) || (65 ≤ c.toNat && c.toNat ≤ 90) ||
    (48 ≤ c.toNat && c.toNat ≤ 57) || c.toNat = 45

/-- A string matching the whole tag-token grammar `#[a-zA-Z0-9-]*`. -/
def isTagToken (s : Str) : Bool :=
  match s with
  | [] => false
  | c :: rest => c = '#' && rest.all isTagChar

/-- ASCII whitespace (models the whitespace stripped by `str::trim` /
`trim_string_end` on the ASCII domain of the tag grammar). -/
def isWs (c : Char) : Bool :=
  c = ' ' || c = '\t' || c = '\n' || c = '\r'

/-- Modelled from the spec: `utils::trim_string_end` (the `utils` crate is
not part of the sources); the spec says the extractor's output text is
right-trimmed. -/
def trimStringEnd (s : Str) : Str :=
  (s.reverse.dropWhile isWs).reverse

/-- Rust `str::trim` (both ends). -/
def trimStr (s : Str) : Str :=
  ((s.dropWhile isWs).reverse.dropWhile isWs).reverse

/-- ASCII lowercasing, byte-wise.  The source uses Unicode `to_lowercase`,
which agrees with this on the ASCII tag-token grammar that every theorem
below quantifies over. -/
def asciiLowerChar (c : Char) : Char :=
  if 65 ≤ c.toNat && c.toNat ≤ 90 then Char.ofNat (c.toNat + 32) else c

/-- ASCII lowercasing of a string. -/
def asciiLowercase (s : Str) : Str :=
  s.map asciiLowerChar

/-- Rust `str::is_char_boundary` at byte index `i`. -/
def isCharBoundary (s : Str) (i : Nat) : Bool :=
  if i = 0 then true
  else if i = s.length then true
  else if i < s.length then
    let b := (s.getD i ' ').toNat
    b < 128 || 192 ≤ b
  else false

/-- Rust byte slice `&s[i..]`; `none` models the slicing panic (index out
of bounds or not a character boundary). -/
def sliceFrom (s : Str) (i : Nat) : Option Str :=
  if i ≤ s.length ∧ isCharBoundary s i then some (s.drop i) else none

/-- Rust byte slice `&s[e..e+1]`; `none` models the slicing panic. -/
def sliceGet1 (s : Str) (e : Nat) : Option Str :=
  if e + 1 ≤ s.length ∧ isCharBoundary s e ∧ isCharBoundary s (e + 1) then
    some ((s.drop e).take 1)
  else none

/-- Rust `String::replace_range(a..b, "")`; `none` models the panic on an
invalid or non-boundary range. -/
def replaceRangeEmpty (s : Str) (a b : Nat) : Option Str :=
  if a ≤ b ∧ b ≤ s.length ∧ isCharBoundary s a ∧ isCharBoundary s b then
    some (s.take a ++ s.drop b)
  else none

/-- Rust `u8::from_str`: optional leading `+`, one or more ASCII digits,
value at most 255. -/
def parseU8 (s : Str) : Option Nat :=
  let t := if s.head? = some '+' then s.tail else s
  if t = [] then none
  else if t.all Char.isDigit then
    let v := t.foldl (fun a c => a * 10 + (c.toNat - 48)) 0
    if v ≤ 255 then some v else none
  else none

/-- All matches of the tag regex `#[a-zA-Z0-9-]*` in `s`, as half-open byte
ranges, leftmost and non-overlapping as `Regex::find_iter` produces them
(fuel-structured recursion; `s.length` fuel always suffices). -/
def findMatchesAux : Nat → Str → Nat → List (Nat × Nat)
  | 0, _, _ => []
  | _ + 1, [], _ => []
  | fuel + 1, c :: rest, pos =>
    if c = '#' then
      let body := rest.takeWhile isTagChar
      (pos, pos + 1 + body.length) ::
        findMatchesAux fuel (rest.drop body.length) (pos + 1 + body.length)
    else findMatchesAux fuel rest (pos + 1)

/-- All tag-token matches in `s`. -/
def findMatches (s : Str) : List (Nat × Nat) :=
  findMatchesAux s.length s 0

/-- Loop state of `extract_parse`: the edited output string, the collected
tags, and the cumulative removal delta. -/
structure ExtractState where
  newOut : Str
  tags : List Tag
  delta : Nat
deriving DecidableEq, Repr

/-- One iteration of the `extract_parse` loop for the match `m` (a byte
range of `inp`).  `none` models a panic: an underflowing `usize`
subtraction (which either aborts directly or produces a wrapped index that
makes `replace_range` panic), a non-boundary byte read, or a non-boundary
`replace_range`. -/
def extractStep (inp : Str) (parseFn : Str → Option Tag × Bool)
    (st : ExtractState) (m : Nat × Nat) : Option ExtractState :=
  let tagStr := (inp.drop m.1).take (m.2 - m.1)
  let pr := parseFn tagStr
  let tags' := match pr.1 with
    | some t => st.tags ++ [t]
    | none => st.tags
  if pr.2 = false then some { st with tags := tags' }
  else if st.delta > m.1 ∨ st.delta > m.2 then none
  else
    let s := m.1 - st.delta
    let e := m.2 - st.delta
    -- new_out.len() > e + 1 && inp.is_char_boundary(e + 1) && &inp[e..e+1] == " "
    let spaceCk : Option Bool :=
      if st.newOut.length > e + 1 then
        if isCharBoundary inp (e + 1) then
          match sliceGet1 inp e with
          | none => none
          | some cs => some (cs = [' '])
        else some false
      else some false
    match spaceCk with
    | none => none
    | some sp =>
      let e' := if sp then e + 1 else e
      let delta' := if sp then st.delta + 1 else st.delta
      match replaceRangeEmpty st.newOut s e' with
      | none => none
      | some out' =>
        some { newOut := out', tags := tags', delta := delta' + (m.2 - m.1) }

/-- `tags::extract_parse`: scans `inp` for tag tokens, feeds each to
`parseFn`, removes the tokens marked for removal, and right-trims the
result.  `none` models a panic inside the loop. -/
def extract_parse (inp : Str) (parseFn : Str → Option Tag × Bool) :
    Option (Str × List Tag) :=
  ((findMatches inp).foldlM (extractStep inp parseFn)
      ⟨inp, [], 0⟩).map (fun st => (trimStringEnd st.newOut, st.tags))

/-- `tags::parse_jlpt_tag`.  The outer `Option` is the panic monad (`none`
= slicing panic), the inner `Option` the function's return value. -/
def parse_jlpt_tag (s : Str) : Option (Option Tag) :=
  match s.get? 1 with
  | none => some none
  | some c =>
    if asciiLowerChar c ≠ 'n' then some none
    else
      match sliceFrom s 2 with
      | none => none
      | some rest =>
        some ((parseU8 rest).bind fun nr =>
          if 0 < nr ∧ nr < 6 then some (Tag.Jlpt nr) else none)

/-- Rust `str::strip_prefix("#")`. -/
def stripHash (s : Str) : Option Str :=
  if s.head? = some '#' then some s.tail else none

/-- `tags::parse_genki_tag`.  Outer `Option` = panic monad. -/
def parse_genki_tag (s : Str) : Option (Option Tag) :=
  match stripHash (trimStr s) with
  | some e0 =>
    let e := asciiLowercase (trimStr e0)
    if ("genki".toList).isPrefixOf e then
      match sliceFrom s 6 with
      | none => none
      | some rest =>
        some ((parseU8 rest).bind fun nr =>
          if 3 ≤ nr ∧ nr ≤ 23 then some (Tag.GenkiLesson nr) else none)
    else some none
  | none => some none

/-- `tags::parse_search_type`.  Outer `Option` = panic monad; the slice
`&s[1..]` panics on the empty string. -/
def parse_search_type (s : Str) : Option (Option Tag) :=
  match sliceFrom s 1 with
  | none => none
  | some rest =>
    let r := asciiLowercase rest
    some (
      if r = "kanji".toList then some (Tag.SearchType SearchTarget.Kanji)
      else if r = "sentence".toList ∨ r = "sentences".toList then
        some (Tag.SearchType SearchTarget.Sentences)
      else if r = "name".toList ∨ r = "names".toList then
        some (Tag.SearchType SearchTarget.Names)
      else if r = "word".toList ∨ r = "words".toList then
        some (Tag.SearchType SearchTarget.Words)
      else if r = "abbreviation".toList ∨ r = "abbrev".toList then
        some (Tag.MiscTag MiscKind.Abbreviation)
      else none)

/-- Keyword branch of `tags::parse`: lowercase, strip `#`, match the
hidden/irregular-ichidan aliases. -/
def tagKeyword (s : Str) : Option Tag :=
  match stripHash (asciiLowercase s) with
  | some tag =>
    if tag = "hidden".toList ∨ tag = "hide".toList then some Tag.Hidden
    else if tag = "irrichidan".toList ∨ tag = "irregularichidan".toList ∨
        tag = "irregular-ichidan".toList then some Tag.IrregularIruEru
    else none
  | none => none

/-- `tags::parse`, parameterised by the external
`PosSimple::from_str` implementation (`types` crate).  Outer `Option` =
panic monad. -/
def parseTag (posFromStr : Str → Option PosSimple) (s : Str) :
    Option (Option Tag) :=
  match tagKeyword s with
  | some t => some (some t)
  | none =>
    match parse_genki_tag s with
    | none => none
    | some (some t) => some (some t)
    | some none =>
      match parse_jlpt_tag s with
      | none => none
      | some (some t) => some (some t)
      | some none =>
        match parse_search_type s with
        | none => none
        | some (some t) => some (some t)
        | some none =>
          match sliceFrom s 1 with
          | none => none
          | some rest => some ((posFromStr rest).map Tag.PartOfSpeech)

theorem dropWhile_eq_self_of_not (p : Char → Bool) (s : Str)
    (h : ∀ c ∈ s, p c = false) : s.dropWhile p = s := by
  cases s with
  | nil => rfl
  | cons c rest => simp [List.dropWhile_cons, h c (by simp)]

theorem dropWhile_dropWhile (p : Char → Bool) (s : Str) :
    (s.dropWhile p).dropWhile p = s.dropWhile p := by
  induction s with
  | nil => rfl
  | cons c rest ih => by_cases h : p c <;> simp [List.dropWhile_cons, h, ih]

theorem trimStr_eq_self (s : Str) (h : ∀ c ∈ s, isWs c = false) :
    trimStr s = s := by
  unfold trimStr
  rw [dropWhile_eq_self_of_not _ s h,
    dropWhile_eq_self_of_not _ s.reverse
      (fun c hc => h c (List.mem_reverse.mp hc)),
    List.reverse_reverse]

theorem trimStringEnd_idem (s : Str) :
    trimStringEnd (trimStringEnd s) = trimStringEnd s := by
  unfold trimStringEnd
  rw [List.reverse_reverse, dropWhile_dropWhile]

theorem tagChar_toNat_lt (c : Char) (h : isTagChar c = true) :
    c.toNat < 128 := by
  simp [isTagChar] at h
  omega

theorem tagChar_not_ws (c : Char) (h : isTagChar c = true) : isWs c = false := by
  simp only [isTagChar, Bool.or_eq_true, Bool.and_eq_true, decide_eq_true_eq] at h
  have hn : c.toNat ≠ 32 ∧ c.toNat ≠ 9 ∧ c.toNat ≠ 10 ∧ c.toNat ≠ 13 := by omega
  simp only [isWs, Bool.or_eq_false_iff, decide_eq_false_iff_not]
  exact ⟨⟨⟨fun hc => hn.1 (by rw [hc]; rfl), fun hc => hn.2.1 (by rw [hc]; rfl)⟩,
    fun hc => hn.2.2.1 (by rw [hc]; rfl)⟩, fun hc => hn.2.2.2 (by rw [hc]; rfl)⟩

theorem tagToken_dest (s : Str) (h : isTagToken s = true) :
    ∃ rest, s = '#' :: rest ∧ ∀ c ∈ rest, isTagChar c = true := by
  cases s with
  | nil => simp [isTagToken] at h
  | cons c rest =>
    simp only [isTagToken, Bool.and_eq_true, decide_eq_true_eq,
      List.all_eq_true] at h
    exact ⟨rest, by rw [h.1], h.2⟩

theorem tagToken_ascii (s : Str) (h : isTagToken s = true) :
    ∀ c ∈ s, c.toNat < 128 := by
  obtain ⟨rest, rfl, hall⟩ := tagToken_dest s h
  intro c hc
  rcases List.mem_cons.mp hc with rfl | hc
  · decide
  · exact tagChar_toNat_lt c (hall c hc)

theorem tagToken_not_ws (s : Str) (h : isTagToken s = true) :
    ∀ c ∈ s, isWs c = false := by
  obtain ⟨rest, rfl, hall⟩ := tagToken_dest s h
  intro c hc
  rcases List.mem_cons.mp hc with rfl | hc
  · decide
  · exact tagChar_not_ws c (hall c hc)

theorem isCharBoundary_of_ascii (s : Str) (h : ∀ c ∈ s, c.toNat < 128)
    (i : Nat) (hi : i ≤ s.length) : isCharBoundary s i = true := by
  by_cases h0 : i = 0
  · simp [isCharBoundary, h0]
  by_cases hl : i = s.length
  · simp [isCharBoundary, h0, hl]
  have hlt : i < s.length := lt_of_le_of_ne hi hl
  have hmem : s[i] ∈ s := List.getElem_mem hlt
  simp [isCharBoundary, h0, hl, hlt]
  exact Or.inl (h _ hmem)

theorem sliceFrom_of_token (s : Str) (h : isTagToken s = true) (i : Nat)
    (hi : i ≤ s.length) : sliceFrom s i = some (s.drop i) := by
  unfold sliceFrom
  simp [hi, isCharBoundary_of_ascii s (tagToken_ascii s h) i hi]

theorem parse_genki_tag_isSome (s : Str) (h : isTagToken s = true) :
    (parse_genki_tag s).isSome = true := by
  obtain ⟨rest, rfl, hall⟩ := tagToken_dest s h
  have htrim : trimStr ('#' :: rest) = '#' :: rest :=
    trimStr_eq_self _ (tagToken_not_ws _ h)
  have htrim2 : trimStr rest = rest :=
    trimStr_eq_self rest (fun c hc => tagChar_not_ws c (hall c hc))
  have hsh : stripHash ('#' :: rest) = some rest := rfl
  unfold parse_genki_tag
  rw [htrim, hsh]
  simp only [htrim2]
  by_cases hg : ['g', 'e', 'n', 'k', 'i'] <+: asciiLowercase rest
  · have hlen : 6 ≤ ('#' :: rest).length := by
      have hpre := List.IsPrefix.length_le hg
      simp only [asciiLowercase, List.length_map] at hpre
      simp only [List.length_cons]
      simp at hpre
      omega
    rw [sliceFrom_of_token _ h 6 hlen]
    simp [hg]
  · simp [hg]

theorem parse_jlpt_tag_isSome (s : Str) (h : isTagToken s = true) :
    (parse_jlpt_tag s).isSome = true := by
  unfold parse_jlpt_tag
  cases hg : s.get? 1 with
  | none => simp
  | some c =>
    by_cases hn : asciiLowerChar c = 'n'
    · have h2 : 2 ≤ s.length := by
        obtain ⟨hlt, -⟩ := List.get?_eq_some.mp hg
        omega
      rw [sliceFrom_of_token s h 2 h2]
      simp [hn]
    · simp [hn]

theorem parse_search_type_isSome (s : Str) (h : isTagToken s = true) :
    (parse_search_type s).isSome = true := by
  have h1 : 1 ≤ s.length := by
    obtain ⟨rest, rfl, -⟩ := tagToken_dest s h
    simp
  unfold parse_search_type
  rw [sliceFrom_of_token s h 1 h1]
  simp

/-- C10: on every token produced by the tag regex `#[a-zA-Z0-9-]*`, the
tag parser returns (no byte-slice panic), for every part-of-speech
`FromStr` implementation; and the grammar precondition is necessary: on
the empty string the slice `&s[1..]` in `parse_search_type` is out of
bounds and `parse` panics. -/
theorem parseTag_no_panic :
    (∀ (posFromStr : Str → Option PosSimple) (s : Str), isTagToken s = true →
      (parseTag posFromStr s).isSome = true) ∧
    (∀ posFromStr, parseTag posFromStr [] = none) := by
  constructor
  · intro pos s h
    unfold parseTag
    cases hkw : tagKeyword s with
    | some t => simp
    | none =>
      obtain ⟨gv, hgv⟩ := Option.isSome_iff_exists.mp (parse_genki_tag_isSome s h)
      rw [hgv]
      cases gv with
      | some t => simp
      | none =>
        obtain ⟨jv, hjv⟩ :=
          Option.isSome_iff_exists.mp (parse_jlpt_tag_isSome s h)
        rw [hjv]
        cases jv with
        | some t => simp
        | none =>
          obtain ⟨sv, hsv⟩ :=
            Option.isSome_iff_exists.mp (parse_search_type_isSome s h)
          rw [hsv]
          cases sv with
          | some t => simp
          | none =>
            have h1 : 1 ≤ s.length := by
              obtain ⟨rest, rfl, -⟩ := tagToken_dest s h
              simp
            rw [sliceFrom_of_token s h 1 h1]
            simp
  · intro pos
    rfl

/-- Witness for C10 at the concrete token `#n4` (and any `posFromStr`). -/
theorem parseTag_no_panic_witness :
    (parseTag (fun _ => none) ("#n4".toList)).isSome = true :=
  parseTag_no_panic.1 (fun _ => none) ("#n4".toList) (by decide)

/-- C8: the JLPT tag parser accepts exactly levels 1..5 (`#n4` ↦ `Jlpt 4`,
`#n0`/`#n6` rejected; boundary cases `#n1`, `#n5` accepted) and the Genki
tag parser accepts exactly lessons 3..23 (`#genki3`/`#genki23` accepted,
`#genki2`/`#genki24` rejected). -/
theorem jlpt_genki_tag_cases :
    parse_jlpt_tag ("#n4".toList) = some (some (Tag.Jlpt 4)) ∧
    parse_jlpt_tag ("#n0".toList) = some none ∧
    parse_jlpt_tag ("#n6".toList) = some none ∧
    parse_jlpt_tag ("#n1".toList) = some (some (Tag.Jlpt 1)) ∧
    parse_jlpt_tag ("#n5".toList) = some (some (Tag.Jlpt 5)) ∧
    parse_genki_tag ("#genki3".toList) = some (some (Tag.GenkiLesson 3)) ∧
    parse_genki_tag ("#genki23".toList) = some (some (Tag.GenkiLesson 23)) ∧
    parse_genki_tag ("#genki2".toList) = some none ∧
    parse_genki_tag ("#genki24".toList) = some none := by
  decide

theorem findMatchesAux_nil_of_no_hash (fuel : Nat) (s : Str) (pos : Nat)
    (h : '#' ∉ s) : findMatchesAux fuel s pos = [] := by
  induction fuel generalizing s pos with
  | zero => rfl
  | succ n ih =>
    cases s with
    | nil => rfl
    | cons c rest =>
      simp only [List.mem_cons, not_or] at h
      have hc : ¬ c = '#' := fun e => h.1 e.symm
      simp only [findMatchesAux, if_neg hc]
      exact ih rest (pos + 1) h.2

theorem extract_parse_no_tokens (s : Str) (pf : Str → Option Tag × Bool)
    (h : '#' ∉ s) : extract_parse s pf = some (trimStringEnd s, []) := by
  unfold extract_parse findMatches
  rw [findMatchesAux_nil_of_no_hash _ _ _ h]
  rfl

/-- C4 (amended): if the first extraction run returns and its cleaned
output text contains no tag token (no `#` byte), a second run on that text
returns the same text and an empty tag list, for every tag parser. -/
theorem tagExtract_idem (inp : Str) (pf : Str → Option Tag × Bool)
    (out : Str) (tags : List Tag)
    (h1 : extract_parse inp pf = some (out, tags)) (h2 : '#' ∉ out) :
    extract_parse out pf = some (out, []) := by
  have hout : trimStringEnd out = out := by
    unfold extract_parse at h1
    obtain ⟨st, hst, heq⟩ := Option.map_eq_some'.mp h1
    have : out = trimStringEnd st.newOut := by
      have := congrArg Prod.fst heq
      exact this.symm
    rw [this, trimStringEnd_idem]
  rw [extract_parse_no_tokens out pf h2, hout]

/-- Witness for C4's amended theorem: extracting from `"#n4 abc"` with a
parser that removes every token yields `"abc"`, and re-extraction is the
identity with no tags. -/
theorem tagExtract_idem_witness :
    extract_parse ("abc".toList) (fun _ => (none, true)) =
      some ("abc".toList, []) :=
  tagExtract_idem ("#n4 abc".toList) (fun _ => (none, true))
    ("abc".toList) [] (by decide) (by decide)

/-- Counterexample to C4 as stated (quantifying over every tag parser): a
parser that yields a tag without marking the token for removal leaves the
token `#a` in the output text, so re-running on the output again returns
the tag `Hidden`, not an empty list. -/
theorem tagExtract_idem_counterexample :
    extract_parse ("#a".toList) (fun _ => (some Tag.Hidden, false)) =
      some ("#a".toList, [Tag.Hidden]) ∧ [Tag.Hidden] ≠ ([] : List Tag) := by
  exact ⟨by decide, by decide⟩

/-- Languages, kept opaque: the enum lives in the external
`resources::parse::jmdict::languages` crate and only equality is used. -/
abbrev Language := Nat

/-- Sparse vector of the external `vector_space_model` crate: a list of
dimension/weight pairs; only the dimension list and an abstract similarity
function over vectors are consumed by the search task. -/
abbrev SparseVec := List (Nat × Rat)

/-- Dimensions a sparse vector touches (`vec_indices`). -/
def SparseVec.dims (v : SparseVec) : List Nat :=
  v.map Prod.fst

/-- `DocumentVector` of the external crate: a payload document plus its
sparse vector. -/
structure DocVec (D : Type) where
  document : D
  vector : SparseVec
deriving DecidableEq, Repr

/-- Index as consumed by the search task: its document-vector store.  (The
term dictionary is only used by `has_term`, which no claim concerns.) -/
structure IndexModel (D : Type) where
  vectorStore : List (DocVec D)

/-- Modelled from the spec: `VectorStore::get_all_iter` of the external
`vector_space_model` crate — retrieval of all document vectors sharing at
least one of the given dimensions, in store order. -/
def getAllIter (ds : List Nat) (store : List (DocVec D)) : List (DocVec D) :=
  store.filter (fun dv => dv.vector.dims.any (fun d => ds.contains d))

/-- The `SearchEngine` capability (trait declaration lives in the missing
`engine_v2/mod.rs`; operation signatures follow `search_task.rs` call
sites), with the external crate's `similarity` bundled in. -/
structure EngineModel (D G O : Type) where
  getIndex : Option Language → Option (IndexModel D)
  alignQuery : Str → IndexModel D → Option Language → Option Str
  genQueryVector : IndexModel D → Str → Option (DocVec G)
  docToOutput : D → Option (List O)
  similarity : SparseVec → SparseVec → Rat

/-- `engine_v2::SearchTask` state. -/
structure TaskModel (D O : Type) where
  queries : List (Str × Option Language)
  vecFilter : Option (D → Bool)
  resFilter : Option (O → Bool)
  order : Option (O → Rat → Str → Option Language → Nat)
  threshold : Rat
  limit : Nat
  vectorLimit : Nat
  offset : Nat
  allowAlign : Bool

/-- `impl Default for SearchTask` (the `f32` literal `0.2` is modelled as
the rational `1/5`). -/
def TaskModel.defaultTask : TaskModel D O :=
  { queries := [], vecFilter := none, resFilter := none, order := none,
    threshold := 1/5, limit := 1000, vectorLimit := 100000, offset := 0,
    allowAlign := true }

/-- Modelled from the spec: `engine_v2::result_item::ResultItem` (file not
part of the sources): an output value, its relevance score, and the
language used to find it; totally ordered by relevance. -/
structure ResultItem (O : Type) where
  item : O
  relevance : Nat
  language : Option Language
deriving DecidableEq, Repr

/-- Modelled from the spec: `engine_v2::result::SearchResult` (file not
part of the sources): the paginated ordered items plus the pre-pagination
candidate count. -/
structure SearchResult (O : Type) where
  items : List (ResultItem O)
  totalCount : Nat
deriving DecidableEq, Repr

/-- `engine_v2` error taxonomy (subset reachable from `find`). -/
inductive SearchError
  | Unexpected
deriving DecidableEq, Repr

/-- Rust `as usize` applied to a nonnegative-or-clamped float product:
truncation toward zero with saturation at 0 (for `q ≥ 0` this is the
floor, for `q < 0` the result is 0, as for `f32 as usize`). -/
def ratToUsize (q : Rat) : Nat :=
  q.floor.toNat

/-- `SearchTask::calculate_score`: custom order function if set, else
`(rel * 100f32) as usize`. -/
def calculateScore (t : TaskModel D O) (item : O) (rel : Rat) (q : Str)
    (l : Option Language) : Nat :=
  match t.order with
  | some f => f item rel q l
  | none => ratToUsize (rel * 100)

/-- `SearchTask::filter_result`. -/
def filterResult (t : TaskModel D O) (o : O) : Bool :=
  (t.resFilter.map (fun f => f o)).getD true

/-- `SearchTask::filter_vector`. -/
def filterVector (t : TaskModel D O) (d : D) : Bool :=
  (t.vecFilter.map (fun f => f d)).getD true

/-- `SearchTask::result_from_doc_vectors`: pre-filter, threshold test on
similarity, map documents to outputs, post-filter, score and wrap. -/
def resultFromDocVectors (w : EngineModel D G O) (t : TaskModel D O)
    (docVecs : List (DocVec D)) (qVec : DocVec G) (qStr : Str)
    (lang : Option Language) : List (ResultItem O) :=
  ((((docVecs.filterMap (fun i =>
      if filterVector t i.document = false then none
      else if w.similarity i.vector qVec.vector ≤ t.threshold then none
      else (w.docToOutput i.document).map (fun outs =>
        outs.map (fun o => (w.similarity i.vector qVec.vector, o))))).flatten).filter
    (fun p => filterResult t p.2)).map (fun p =>
      { item := p.2, relevance := calculateScore t p.2 p.1 qStr lang,
        language := lang }))

/-- `SearchTask::find_by_vec`: re-resolve the index (error on a missing
language), collect candidate vectors sharing a dimension with the query
vector, capped at the vector-scan limit, and score them. -/
def findByVec (w : EngineModel D G O) (t : TaskModel D O) (qVec : DocVec G)
    (qStr : Str) (lang : Option Language) :
    Except SearchError (List (ResultItem O)) :=
  match w.getIndex lang with
  | none => Except.error SearchError.Unexpected
  | some index =>
    Except.ok (resultFromDocVectors w t
      ((getAllIter qVec.vector.dims index.vectorStore).take t.vectorLimit)
      qVec qStr lang)

/-- `SearchTask::get_queries`: resolve each query pair's index (a missing
language panics via `expect`, modelled as `none`), optionally align the
query, build its query vector, and skip pairs with no vector. -/
def getQueriesAux (w : EngineModel D G O) (t : TaskModel D O) :
    List (Str × Option Language) →
    Option (List (Str × DocVec G × Option Language))
  | [] => some []
  | (q, l) :: rest =>
    match w.getIndex l with
    | none => none
    | some index =>
      let aligned := if t.allowAlign then (w.alignQuery q index l).getD q
        else q
      match w.genQueryVector index aligned with
      | none => getQueriesAux w t rest
      | some v => (getQueriesAux w t rest).map (fun r => (aligned, v, l) :: r)

/-- Deduplication `unique_by(|a| a.item)` of itertools: keep the first
occurrence of each output item. -/
def uniqueByItem [DecidableEq O] :
    List (ResultItem O) → List O → List (ResultItem O)
  | [], _ => []
  | r :: rest, seen =>
    if r.item ∈ seen then uniqueByItem rest seen
    else r :: uniqueByItem rest (r.item :: seen)

/-- Stable insertion into a list sorted ascending by the comparator
(equal elements are passed over, preserving original order). -/
def insertBy (c : α → α → Ordering) (x : α) : List α → List α
  | [] => [x]
  | y :: ys => if c x y = Ordering.gt then y :: insertBy c x ys
    else x :: y :: ys

/-- Stable sort by a comparator; models Rust's stable `sort_by` and the
drain order of a `BinaryHeap` (spec: ties are arbitrary but stable within
one heap build). -/
def sortByCmp (c : α → α → Ordering) : List α → List α
  | [] => []
  | x :: xs => insertBy c x (sortByCmp c xs)

/-- Comparator realising the `Ord` of `ResultItem` for a max-heap drain:
descending by relevance. -/
def riCmp (a b : ResultItem O) : Ordering :=
  compare b.relevance a.relevance

/-- Modelled from the spec: `SearchResult::from_binary_heap`
(engine_v2/result.rs not part of the sources): drain the heap to a
relevance-descending sequence, slice it by offset and limit, and report
the pre-slice candidate count as the result's total. -/
def fromBinaryHeap (items : List (ResultItem O)) (offset limit : Nat) :
    SearchResult O :=
  { items := ((sortByCmp riCmp items).drop offset).take limit,
    totalCount := items.length }

/-- `collect::<Result<Vec<_>, _>>`: collect the per-query results,
stopping at the first error. -/
def collectResults (f : α → Except ε β) : List α → Except ε (List β)
  | [] => Except.ok []
  | a :: rest =>
    match f a with
    | Except.error e => Except.error e
    | Except.ok b => (collectResults f rest).map (fun bs => b :: bs)

/-- `SearchTask::find` up to the heap: per-query retrieval, merge, and
first-wins deduplication by output item.  The outer `Option` is the panic
monad (`expect("Lang not loaded")`). -/
def findItems [DecidableEq O] (w : EngineModel D G O) (t : TaskModel D O) :
    Option (Except SearchError (List (ResultItem O))) :=
  (getQueriesAux w t t.queries).map (fun qs =>
    (collectResults (fun trip => findByVec w t trip.2.1 trip.1 trip.2.2)
        qs).map
      (fun ls => uniqueByItem ls.flatten []))

/-- `SearchTask::find`: the merged deduplicated items are drained through
the relevance max-heap and sliced by offset/limit. -/
def findTask [DecidableEq O] (w : EngineModel D G O) (t : TaskModel D O) :
    Option (Except SearchError (SearchResult O)) :=
  (findItems w t).map (fun r =>
    r.map (fun items => fromBinaryHeap items t.offset t.limit))

/-- The full unpaginated ranking: the same merged deduplicated items in
heap-drain (relevance-descending) order, before the offset/limit slice. -/
def fullRanking [DecidableEq O] (w : EngineModel D G O) (t : TaskModel D O) :
    Option (Except SearchError (List (ResultItem O))) :=
  (findItems w t).map (fun r => r.map (sortByCmp riCmp))

theorem mem_insertBy (c : α → α → Ordering) (x a : α) (l : List α) :
    a ∈ insertBy c x l ↔ a = x ∨ a ∈ l := by
  induction l with
  | nil => simp [insertBy]
  | cons y ys ih =>
    by_cases h : c x y = Ordering.gt
    · simp only [insertBy, if_pos h, List.mem_cons, ih]
      tauto
    · simp only [insertBy, if_neg h, List.mem_cons]

theorem mem_sortByCmp (c : α → α → Ordering) (a : α) (l : List α) :
    a ∈ sortByCmp c l ↔ a ∈ l := by
  induction l with
  | nil => simp [sortByCmp]
  | cons x xs ih => simp [sortByCmp, mem_insertBy, ih]

theorem length_insertBy (c : α → α → Ordering) (x : α) (l : List α) :
    (insertBy c x l).length = l.length + 1 := by
  induction l with
  | nil => simp [insertBy]
  | cons y ys ih =>
    by_cases h : c x y = Ordering.gt <;> simp [insertBy, h, ih]

theorem length_sortByCmp (c : α → α → Ordering) (l : List α) :
    (sortByCmp c l).length = l.length := by
  induction l with
  | nil => simp [sortByCmp]
  | cons x xs ih => simp [sortByCmp, length_insertBy, ih]

theorem pairwise_insertBy_riCmp (x : ResultItem O) (l : List (ResultItem O))
    (h : List.Pairwise (fun a b => b.relevance ≤ a.relevance) l) :
    List.Pairwise (fun a b => b.relevance ≤ a.relevance)
      (insertBy riCmp x l) := by
  induction l with
  | nil => simp [insertBy]
  | cons y ys ih =>
    obtain ⟨hy, hys⟩ := List.pairwise_cons.mp h
    by_cases hc : riCmp x y = Ordering.gt
    · have hxy : x.relevance < y.relevance := by
        have := hc
        simp only [riCmp, Nat.compare_eq_gt] at this
        exact this
      simp only [insertBy, if_pos hc]
      refine List.pairwise_cons.mpr ⟨?_, ih hys⟩
      intro b hb
      rcases (mem_insertBy _ _ _ _).mp hb with rfl | hb
      · omega
      · exact hy b hb
    · have hyx : y.relevance ≤ x.relevance := by
        have : ¬ x.relevance < y.relevance := by
          intro hlt
          exact hc (by simp only [riCmp, Nat.compare_eq_gt]; exact hlt)
        omega
      simp only [insertBy, if_neg hc]
      refine List.pairwise_cons.mpr ⟨?_, h⟩
      intro b hb
      rcases List.mem_cons.mp hb with rfl | hb
      · exact hyx
      · exact le_trans (hy b hb) hyx

theorem pairwise_sortByCmp_riCmp (l : List (ResultItem O)) :
    List.Pairwise (fun a b => b.relevance ≤ a.relevance)
      (sortByCmp riCmp l) := by
  induction l with
  | nil => simp [sortByCmp]
  | cons x xs ih => exact pairwise_insertBy_riCmp x _ ih

theorem mem_uniqueByItem [DecidableEq O] :
    ∀ (l : List (ResultItem O)) (seen : List O) (r : ResultItem O),
      r ∈ uniqueByItem l seen → r ∈ l := by
  intro l
  induction l with
  | nil => intro seen r h; simp [uniqueByItem] at h
  | cons a rest ih =>
    intro seen r h
    by_cases hs : a.item ∈ seen
    · simp only [uniqueByItem, if_pos hs] at h
      exact List.mem_cons_of_mem a (ih seen r h)
    · simp only [uniqueByItem, if_neg hs] at h
      rcases List.mem_cons.mp h with rfl | h
      · exact List.mem_cons_self r rest
      · exact List.mem_cons_of_mem a (ih _ r h)

theorem collectResults_ok_mem (f : α → Except ε β) :
    ∀ (l : List α) (out : List β), collectResults f l = Except.ok out →
      ∀ b ∈ out, ∃ a ∈ l, f a = Except.ok b := by
  intro l
  induction l with
  | nil =>
    intro out h b hb
    simp only [collectResults, Except.ok.injEq] at h
    subst h
    simp at hb
  | cons a rest ih =>
    intro out h b hb
    simp only [collectResults] at h
    cases hfa : f a with
    | error e =>
      rw [hfa] at h
      simp at h
    | ok b0 =>
      rw [hfa] at h
      cases hrest : collectResults f rest with
      | error e =>
        rw [hrest] at h
        simp [Except.map] at h
      | ok outs =>
        rw [hrest] at h
        simp only [Except.map, Except.ok.injEq] at h
        subst h
        rcases List.mem_cons.mp hb with rfl | hb
        · exact ⟨a, List.mem_cons_self a rest, hfa⟩
        · obtain ⟨a2, ha2, hfa2⟩ := ih outs hrest b hb
          exact ⟨a2, List.mem_cons_of_mem a ha2, hfa2⟩

theorem mem_resultFromDocVectors (w : EngineModel D G O) (t : TaskModel D O)
    (docVecs : List (DocVec D)) (qVec : DocVec G) (qStr : Str)
    (lang : Option Language) (r : ResultItem O)
    (hr : r ∈ resultFromDocVectors w t docVecs qVec qStr lang) :
    ∃ dv ∈ docVecs, t.threshold < w.similarity dv.vector qVec.vector ∧
      ∃ outs, w.docToOutput dv.document = some outs ∧ r.item ∈ outs ∧
        r.relevance =
          calculateScore t r.item (w.similarity dv.vector qVec.vector)
            qStr lang ∧
        r.language = lang := by
  unfold resultFromDocVectors at hr
  obtain ⟨p, hp, hpr⟩ := List.mem_map.mp hr
  obtain ⟨hpj, hpf⟩ := List.mem_filter.mp hp
  obtain ⟨l2, hl2, hpl⟩ := List.mem_flatten.mp hpj
  obtain ⟨dv, hdv, hf⟩ := List.mem_filterMap.mp hl2
  refine ⟨dv, hdv, ?_⟩
  by_cases h1 : filterVector t dv.document = false
  · rw [if_pos h1] at hf
    exact absurd hf (by simp)
  rw [if_neg h1] at hf
  by_cases h2 : w.similarity dv.vector qVec.vector ≤ t.threshold
  · rw [if_pos h2] at hf
    exact absurd hf (by simp)
  rw [if_neg h2] at hf
  obtain ⟨outs, houts, hmapeq⟩ := Option.map_eq_some'.mp hf
  subst hmapeq
  obtain ⟨o, ho, hpo⟩ := List.mem_map.mp hpl
  subst hpo
  subst hpr
  exact ⟨not_le.mp h2, outs, houts, ho, rfl, rfl⟩

theorem findTask_provenance [DecidableEq O] (w : EngineModel D G O)
    (t : TaskModel D O) (res : SearchResult O)
    (hfind : findTask w t = some (Except.ok res)) :
    ∀ r ∈ res.items, ∃ (qStr : Str) (qVec : DocVec G)
      (lang : Option Language) (index : IndexModel D),
      w.getIndex lang = some index ∧
      ∃ dv ∈ (getAllIter (SparseVec.dims qVec.vector)
          index.vectorStore).take t.vectorLimit,
        t.threshold < w.similarity dv.vector qVec.vector ∧
        ∃ outs, w.docToOutput dv.document = some outs ∧ r.item ∈ outs ∧
          r.relevance =
            calculateScore t r.item (w.similarity dv.vector qVec.vector)
              qStr lang ∧
          r.language = lang := by
  intro r hr
  unfold findTask findItems at hfind
  rw [Option.map_map] at hfind
  obtain ⟨qs, hqs, hcomp⟩ := Option.map_eq_some'.mp hfind
  simp only [Function.comp] at hcomp
  cases hmap : collectResults
      (fun trip => findByVec w t trip.2.1 trip.1 trip.2.2) qs with
  | error e =>
    rw [hmap] at hcomp
    simp [Except.map] at hcomp
  | ok ls =>
    rw [hmap] at hcomp
    simp only [Except.map, Except.ok.injEq] at hcomp
    have hritems : r ∈ ((sortByCmp riCmp
        (uniqueByItem ls.flatten [])).drop t.offset).take t.limit := by
      rw [← hcomp] at hr
      exact hr
    have hr2 : r ∈ uniqueByItem ls.flatten [] :=
      (mem_sortByCmp _ _ _).mp
        (List.mem_of_mem_drop (List.mem_of_mem_take hritems))
    have hr3 : r ∈ ls.flatten := mem_uniqueByItem _ _ _ hr2
    obtain ⟨lr, hlr, hrl⟩ := List.mem_flatten.mp hr3
    obtain ⟨trip, htrip, hok⟩ := collectResults_ok_mem _ qs ls hmap lr hlr
    unfold findByVec at hok
    cases hidx : w.getIndex trip.2.2 with
    | none =>
      rw [hidx] at hok
      exact absurd hok (by simp)
    | some index =>
      rw [hidx] at hok
      simp only [Except.ok.injEq] at hok
      subst hok
      obtain ⟨dv, hdv, hsim, outs, houts, hitem, hrel, hlang⟩ :=
        mem_resultFromDocVectors w t _ trip.2.1 trip.1 trip.2.2 r hrl
      exact ⟨trip.1, trip.2.1, trip.2.2, index, hidx, dv, hdv, hsim,
        outs, houts, hitem, hrel, hlang⟩

theorem filterMap_filter_of_none (p : α → Prop) [DecidablePred p]
    (F : α → Option β) (h : ∀ a, ¬ p a → F a = none) (l : List α) :
    (l.filter (fun a => decide (p a))).filterMap F = l.filterMap F := by
  induction l with
  | nil => rfl
  | cons a rest ih =>
    by_cases hp : p a
    · simp [List.filter_cons, hp, List.filterMap_cons, ih]
    · simp [List.filter_cons, hp, List.filterMap_cons, h a hp, ih]

/-- C1 (amended): for every executed search task the returned items are
sorted descending by relevance, their number never exceeds the configured
limit, and they equal the full unpaginated ranking with its first
`offset` items dropped and then truncated to `limit` (pagination is a
pure slice of the full ranking). -/
theorem searchResult_pagination {D G O : Type} [DecidableEq O]
    (w : EngineModel D G O) (t : TaskModel D O) (res : SearchResult O)
    (hfind : findTask w t = some (Except.ok res)) :
    List.Pairwise (fun a b : ResultItem O => b.relevance ≤ a.relevance)
      res.items ∧
    res.items.length ≤ t.limit ∧
    ∃ full, fullRanking w t = some (Except.ok full) ∧
      List.Pairwise (fun a b : ResultItem O => b.relevance ≤ a.relevance)
        full ∧
      res.items = (full.drop t.offset).take t.limit := by
  unfold findTask at hfind
  obtain ⟨e, he, hcomp⟩ := Option.map_eq_some'.mp hfind
  cases e with
  | error err => simp [Except.map] at hcomp
  | ok items0 =>
    simp only [Except.map, Except.ok.injEq] at hcomp
    have hfull : fullRanking w t =
        some (Except.ok (sortByCmp riCmp items0)) := by
      unfold fullRanking
      rw [he]
      simp [Except.map]
    have hsorted := pairwise_sortByCmp_riCmp (O := O) items0
    have hitems : res.items =
        ((sortByCmp riCmp items0).drop t.offset).take t.limit := by
      rw [← hcomp]
      rfl
    refine ⟨?_, ?_, sortByCmp riCmp items0, hfull, hsorted, hitems⟩
    · rw [hitems]
      have hsub : ((((sortByCmp riCmp items0).drop t.offset).take
          t.limit)).Sublist (sortByCmp riCmp items0) :=
        List.Sublist.trans (List.take_sublist _ _) (List.drop_sublist _ _)
      exact List.Pairwise.sublist hsub hsorted
    · rw [hitems]
      exact List.length_take_le _ _

/-- The sparse vector with a single dimension 1 of weight 1. -/
def oneDimVec : SparseVec := [(1, 1)]

/-- Concrete engine with two documents on dimension 1 and constant
similarity 1. -/
def cxWorldTwo : EngineModel Nat Nat Nat :=
  { getIndex := fun _ => some ⟨[⟨0, oneDimVec⟩, ⟨1, oneDimVec⟩]⟩,
    alignQuery := fun _ _ _ => none,
    genQueryVector := fun _ _ => some ⟨0, oneDimVec⟩,
    docToOutput := fun d => some [d],
    similarity := fun _ _ => 1 }

/-- Default task with one query and limit 1. -/
def cxTaskLimitOne : TaskModel Nat Nat :=
  { TaskModel.defaultTask with queries := [(['q'], none)], limit := 1 }

/-- Counterexample to C1 as stated: with two equally relevant surviving
candidates and limit 1, the returned items are a strict prefix of the
full unpaginated ranking with its first `offset` (= 0) items dropped, so
the two are not equal — the limit truncation is part of the slice. -/
theorem pagination_counterexample :
    findTask cxWorldTwo cxTaskLimitOne =
      some (Except.ok ⟨[⟨0, 100, none⟩], 2⟩) ∧
    fullRanking cxWorldTwo cxTaskLimitOne =
      some (Except.ok [⟨0, 100, none⟩, ⟨1, 100, none⟩]) ∧
    ([⟨0, 100, none⟩] : List (ResultItem Nat)) ≠
      List.drop cxTaskLimitOne.offset [⟨0, 100, none⟩, ⟨1, 100, none⟩] := by
  refine ⟨?_, ?_, by decide⟩ <;> with_unfolding_all rfl

/-- Witness for C1's amended theorem at the two-document engine with
limit 1. -/
theorem searchResult_pagination_witness :
    List.Pairwise (fun a b : ResultItem Nat => b.relevance ≤ a.relevance)
      ([⟨0, 100, none⟩] : List (ResultItem Nat)) ∧
    ([⟨0, 100, none⟩] : List (ResultItem Nat)).length ≤
      cxTaskLimitOne.limit ∧
    ∃ full, fullRanking cxWorldTwo cxTaskLimitOne =
        some (Except.ok full) ∧
      List.Pairwise (fun a b : ResultItem Nat => b.relevance ≤ a.relevance)
        full ∧
      ([⟨0, 100, none⟩] : List (ResultItem Nat)) =
        (full.drop cxTaskLimitOne.offset).take cxTaskLimitOne.limit :=
  searchResult_pagination cxWorldTwo cxTaskLimitOne ⟨[⟨0, 100, none⟩], 2⟩
    (by with_unfolding_all rfl)

/-- C2: every returned item originates from a scanned candidate whose
similarity to the query vector strictly exceeds the task's threshold;
candidates at or below the threshold contribute nothing (deleting them
from the candidate list leaves `result_from_doc_vectors` unchanged); the
default threshold is 0.2. -/
theorem searchTask_threshold_exclusive {D G O : Type} [DecidableEq O]
    (w : EngineModel D G O) (t : TaskModel D O) (res : SearchResult O)
    (hfind : findTask w t = some (Except.ok res)) :
    (∀ r ∈ res.items, ∃ (qVec : DocVec G) (lang : Option Language)
        (index : IndexModel D), w.getIndex lang = some index ∧
      ∃ dv ∈ (getAllIter (SparseVec.dims qVec.vector)
          index.vectorStore).take t.vectorLimit,
        t.threshold < w.similarity dv.vector qVec.vector ∧
        ∃ outs, w.docToOutput dv.document = some outs ∧ r.item ∈ outs) ∧
    (∀ (docVecs : List (DocVec D)) (qVec : DocVec G) (qStr : Str)
        (lang : Option Language),
      resultFromDocVectors w t (docVecs.filter (fun dv =>
          decide (t.threshold < w.similarity dv.vector qVec.vector)))
        qVec qStr lang =
      resultFromDocVectors w t docVecs qVec qStr lang) ∧
    (TaskModel.defaultTask : TaskModel D O).threshold = 1/5 := by
  refine ⟨?_, ?_, rfl⟩
  · intro r hr
    obtain ⟨qStr, qVec, lang, index, hidx, dv, hdv, hsim, outs, houts,
      hitem, -, -⟩ := findTask_provenance w t res hfind r hr
    exact ⟨qVec, lang, index, hidx, dv, hdv, hsim, outs, houts, hitem⟩
  · intro docVecs qVec qStr lang
    unfold resultFromDocVectors
    rw [filterMap_filter_of_none
      (fun dv => t.threshold < w.similarity dv.vector qVec.vector) _
      (fun dv hnp => ?_) docVecs]
    by_cases h1 : filterVector t dv.document = false
    · simp [h1]
    · simp [h1, not_lt.mp hnp]

/-- Witness for C2 at the two-document engine with limit 1. -/
theorem searchTask_threshold_witness :
    (∀ r ∈ ([⟨0, 100, none⟩] : List (ResultItem Nat)),
      ∃ (qVec : DocVec Nat) (lang : Option Language)
        (index : IndexModel Nat),
        cxWorldTwo.getIndex lang = some index ∧
      ∃ dv ∈ (getAllIter (SparseVec.dims qVec.vector)
          index.vectorStore).take cxTaskLimitOne.vectorLimit,
        cxTaskLimitOne.threshold <
          cxWorldTwo.similarity dv.vector qVec.vector ∧
        ∃ outs, cxWorldTwo.docToOutput dv.document = some outs ∧
          r.item ∈ outs) ∧
    (∀ (docVecs : List (DocVec Nat)) (qVec : DocVec Nat) (qStr : Str)
        (lang : Option Language),
      resultFromDocVectors cxWorldTwo cxTaskLimitOne
        (docVecs.filter (fun dv => decide (cxTaskLimitOne.threshold <
          cxWorldTwo.similarity dv.vector qVec.vector))) qVec qStr lang =
      resultFromDocVectors cxWorldTwo cxTaskLimitOne docVecs
        qVec qStr lang) ∧
    (TaskModel.defaultTask : TaskModel Nat Nat).threshold = 1/5 :=
  searchTask_threshold_exclusive cxWorldTwo cxTaskLimitOne
    ⟨[⟨0, 100, none⟩], 2⟩ (by with_unfolding_all rfl)

/-- Concrete engine with one document on dimension 1 and constant
similarity 141/200 = 0.705. -/
def cxWorldHalf : EngineModel Nat Nat Nat :=
  { getIndex := fun _ => some ⟨[⟨0, oneDimVec⟩]⟩,
    alignQuery := fun _ _ _ => none,
    genQueryVector := fun _ _ => some ⟨0, oneDimVec⟩,
    docToOutput := fun d => some [d],
    similarity := fun _ _ => 141/200 }

/-- Default task with one query. -/
def cxTaskPlain : TaskModel Nat Nat :=
  { TaskModel.defaultTask with queries := [(['q'], none)] }

/-- Counterexample to C3 as stated: at similarity 0.705 the default score
is the truncation `(rel * 100f32) as usize` = 70, whereas
`round(similarity * 100)` = `round 70.5` = 71. -/
theorem score_rounding_counterexample :
    findTask cxWorldHalf cxTaskPlain =
      some (Except.ok ⟨[⟨0, 70, none⟩], 1⟩) ∧
    ((70 : Int) ≠ round ((141 / 200 : Rat) * 100)) := by
  constructor
  · with_unfolding_all rfl
  · intro h
    rw [show ((141 / 200 : Rat) * 100) = 141/2 by norm_num] at h
    rw [round_eq] at h
    norm_num at h

/-- The single-document engine of the end-to-end test, over an arbitrary
similarity function. -/
def e2eWorld (sim : SparseVec → SparseVec → Rat) :
    EngineModel Nat Nat Nat :=
  { getIndex := fun _ => some ⟨[⟨0, oneDimVec⟩]⟩,
    alignQuery := fun _ _ _ => none,
    genQueryVector := fun _ _ => some ⟨0, oneDimVec⟩,
    docToOutput := fun d => some [d],
    similarity := sim }

/-- Default task with one query and a chosen limit. -/
def e2eTask (limit : Nat) : TaskModel Nat Nat :=
  { TaskModel.defaultTask with queries := [(['t'], none)], limit := limit }

/-- C3 (amended): with no custom order function every returned item's
relevance equals the similarity times 100 truncated toward zero (the
`as usize` cast), not rounded; and end-to-end, a task over a
single-document index on dimension 1 whose query vector equals the
document vector (similarity 1, threshold 0.2 by default) returns exactly
that document with relevance 100, for every limit ≥ 1. -/
theorem defaultScore_truncation {D G O : Type} [DecidableEq O]
    (w : EngineModel D G O) (t : TaskModel D O) (res : SearchResult O)
    (hord : t.order = none) (hfind : findTask w t = some (Except.ok res)) :
    (∀ r ∈ res.items, ∃ (qVec : DocVec G) (lang : Option Language)
        (index : IndexModel D), w.getIndex lang = some index ∧
      ∃ dv ∈ (getAllIter (SparseVec.dims qVec.vector)
          index.vectorStore).take t.vectorLimit,
        r.relevance =
          ratToUsize (w.similarity dv.vector qVec.vector * 100)) ∧
    (∀ (sim : SparseVec → SparseVec → Rat) (limit : Nat), 1 ≤ limit →
      sim oneDimVec oneDimVec = 1 →
      findTask (e2eWorld sim) (e2eTask limit) =
        some (Except.ok ⟨[⟨0, 100, none⟩], 1⟩)) := by
  constructor
  · intro r hr
    obtain ⟨qStr, qVec, lang, index, hidx, dv, hdv, hsim, outs, houts,
      hitem, hrel, -⟩ := findTask_provenance w t res hfind r hr
    refine ⟨qVec, lang, index, hidx, dv, hdv, ?_⟩
    rw [hrel]
    simp [calculateScore, hord]
  · intro sim limit hlim hsim
    have hth : ¬ ((1 : Rat) ≤ 5⁻¹) := by norm_num
    have hsim1 : sim [(1 : Nat × Rat)] [(1 : Nat × Rat)] = 1 := hsim
    have hfl : ((100 : Rat)).floor.toNat = 100 := by
      with_unfolding_all rfl
    have hfbv : findByVec (e2eWorld sim) (e2eTask limit) ⟨0, oneDimVec⟩
        ['t'] none = Except.ok [⟨0, 100, none⟩] := by
      simp [findByVec, e2eWorld, e2eTask, TaskModel.defaultTask,
        getAllIter, SparseVec.dims, oneDimVec, resultFromDocVectors,
        filterVector, filterResult, calculateScore, hsim1, hth, hfl,
        ratToUsize, List.filterMap_cons, List.filterMap_nil]
    have hgq : getQueriesAux (e2eWorld sim) (e2eTask limit)
        (e2eTask limit).queries = some [(['t'], ⟨0, oneDimVec⟩, none)] :=
      rfl
    have hitems : findItems (e2eWorld sim) (e2eTask limit) =
        some (Except.ok [⟨0, 100, none⟩]) := by
      unfold findItems
      rw [hgq]
      simp [collectResults, hfbv, Except.map, uniqueByItem]
    have htake : List.take limit [(⟨0, 100, none⟩ : ResultItem Nat)] =
        [⟨0, 100, none⟩] := by
      cases limit with
      | zero => omega
      | succ n => simp
    unfold findTask
    rw [hitems]
    simp [Except.map, fromBinaryHeap, sortByCmp, insertBy, htake,
      e2eTask, TaskModel.defaultTask]

/-- Witness for C3's amended theorem: truncation at the similarity-0.705
engine, and the end-to-end run at similarity 1 with limit 1. -/
theorem defaultScore_truncation_witness :
    (∀ r ∈ ([⟨0, 70, none⟩] : List (ResultItem Nat)),
      ∃ (qVec : DocVec Nat) (lang : Option Language)
        (index : IndexModel Nat),
        cxWorldHalf.getIndex lang = some index ∧
      ∃ dv ∈ (getAllIter (SparseVec.dims qVec.vector)
          index.vectorStore).take cxTaskPlain.vectorLimit,
        r.relevance = ratToUsize
          (cxWorldHalf.similarity dv.vector qVec.vector * 100)) ∧
    findTask (e2eWorld (fun _ _ => 1)) (e2eTask 1) =
      some (Except.ok ⟨[⟨0, 100, none⟩], 1⟩) :=
  ⟨(defaultScore_truncation cxWorldHalf cxTaskPlain ⟨[⟨0, 70, none⟩], 1⟩
      rfl (by with_unfolding_all rfl)).1,
    (defaultScore_truncation cxWorldHalf cxTaskPlain ⟨[⟨0, 70, none⟩], 1⟩
      rfl (by with_unfolding_all rfl)).2 (fun _ _ => 1) 1
      (by norm_num) rfl⟩

/-- C5: evaluation of the extractor at the failing input `"#ab x #yq.z"`
with a parser removing every token.  The trailing-space check reads `inp`
at the delta-shifted index `e`, not at the match end, so here it sees the
space at byte 5 of the original input and excises the byte `'.'` that
actually follows `#yq` in the edited string: the result is `"x z"` where
excising only the tokens (and a genuinely following space) would give
`"x .z"`. -/
theorem extract_removal_bug :
    extract_parse ("#ab x #yq.z".toList) (fun _ => (none, true)) =
      some ("x z".toList, []) ∧ ("x z".toList ≠ "x .z".toList) := by
  exact ⟨by decide, by decide⟩

/-- Query language classification (`search::query::QueryLang`; the
variants are listed in the spec's data model, the detector itself is an
external capability). -/
inductive QueryLang
  | Japanese
  | Foreign
  | Undetected
deriving DecidableEq, Repr

/-- `api::search_suggestion::WordPair`: kana plus optional kanji. -/
structure WordPair where
  primary : Str
  secondary : Option Str
deriving DecidableEq, Repr

/-- `MAX_RESULTS`. -/
def MAX_RESULTS : Nat := 10

/-- `WordPair::has_reading`. -/
def hasReading (wp : WordPair) (reading : Str) : Bool :=
  decide (wp.primary = reading) ||
    ((wp.secondary.map (fun i => decide (i = reading))).getD false)

/-- `Vec::dedup`: remove consecutive duplicate sequence ids. -/
def dedupConsec : List Int → List Int
  | [] => []
  | [a] => [a]
  | a :: b :: rest =>
    if a = b then dedupConsec (b :: rest)
    else a :: dedupConsec (b :: rest)

/-- `japanese::load_words`, with the per-sequence word query abstracted as
`wordRows` (the database collaborator): each row is a reading plus its
kanji flag; the kana form is the first non-kanji row (its absence skips
the sequence via `?`), the kanji form the first kanji row. -/
def loadWords (wordRows : Int → List (Str × Bool)) (seqs : List Int) :
    List WordPair :=
  seqs.filterMap (fun s =>
    let words := wordRows s
    (words.find? (fun i => !i.2)).map (fun kana =>
      { primary := kana.1,
        secondary := (words.find? (fun i => i.2)).map Prod.fst }))

/-- `japanese::suggestions` / `get_sequence_ids`, with the rows returned
by the sequence query abstracted as `seqRows`; the SQL carries
`LIMIT MAX_RESULTS`, so a conforming database returns at most
`MAX_RESULTS` rows (hypothesis of the theorem below). -/
def japaneseSuggestions (wordRows : Int → List (Str × Bool))
    (seqRows : List Int) : List WordPair :=
  loadWords wordRows (dedupConsec seqRows)

/-- `foreign::suggestions`, with the registry lookup abstracted as
`searchRes` (`None` models a missing registry or empty search, folded by
`unwrap_or_default`): map the entries to word pairs, taking at most 10. -/
def foreignSuggestions (searchRes : Option (List Str)) : List WordPair :=
  (searchRes.map (fun l =>
    (l.map (fun t => ({ primary := t, secondary := none } : WordPair))).take
      10)).getD []

/-- Comparator of the exact-match promotion sort in
`get_suggestion_by_query`. -/
def promoteCmp (q : Str) (a b : WordPair) : Ordering :=
  if hasReading a q = true ∧ hasReading b q = false then Ordering.lt
  else if hasReading b q = true ∧ hasReading a q = false then Ordering.gt
  else Ordering.eq

/-- The word-pair list of `get_suggestion_by_query` before the promotion
sort, dispatched on the query's detected language. -/
def preSortPairs (wordRows : Int → List (Str × Bool)) (seqRows : List Int)
    (searchRes : Option (List Str)) (lang : QueryLang) : List WordPair :=
  match lang with
  | QueryLang.Japanese => japaneseSuggestions wordRows seqRows
  | QueryLang.Foreign => foreignSuggestions searchRes
  | QueryLang.Undetected => foreignSuggestions searchRes

/-- `SuggestionResponse`. -/
structure SuggestionResponse where
  suggestions : List WordPair
deriving DecidableEq, Repr

/-- `get_suggestion_by_query`: produce the word pairs for the query's
language and stable-sort exact reading matches to the front (Rust
`sort_by` is stable). -/
def getSuggestionByQuery (wordRows : Int → List (Str × Bool))
    (seqRows : List Int) (searchRes : Option (List Str))
    (lang : QueryLang) (q : Str) : SuggestionResponse :=
  { suggestions :=
      sortByCmp (promoteCmp q) (preSortPairs wordRows seqRows searchRes lang) }

theorem insertBy_front (c : α → α → Ordering) (x : α) (l : List α)
    (h : ∀ y ∈ l, c x y ≠ Ordering.gt) : insertBy c x l = x :: l := by
  cases l with
  | nil => rfl
  | cons y ys => simp [insertBy, h y (List.mem_cons_self y ys)]

theorem insertBy_middle (c : α → α → Ordering) (x : α) :
    ∀ (A B : List α), (∀ a ∈ A, c x a = Ordering.gt) →
      (∀ b ∈ B, c x b ≠ Ordering.gt) →
      insertBy c x (A ++ B) = A ++ x :: B := by
  intro A
  induction A with
  | nil =>
    intro B hA hB
    simpa using insertBy_front c x B hB
  | cons a as ih =>
    intro B hA hB
    simp only [List.cons_append, insertBy,
      if_pos (hA a (List.mem_cons_self a as)), List.append_eq]
    rw [ih B (fun y hy => hA y (List.mem_cons_of_mem a hy)) hB]

theorem sortByCmp_promote (q : Str) (l : List WordPair) :
    sortByCmp (promoteCmp q) l =
      l.filter (fun wp => hasReading wp q) ++
        l.filter (fun wp => !(hasReading wp q)) := by
  induction l with
  | nil => rfl
  | cons x xs ih =>
    simp only [sortByCmp, ih]
    by_cases hx : hasReading x q
    · rw [insertBy_front]
      · simp [List.filter_cons, hx]
      · intro y hy
        simp [promoteCmp, hx]
    · rw [insertBy_middle (promoteCmp q) x
        (xs.filter (fun wp => hasReading wp q))
        (xs.filter (fun wp => !(hasReading wp q)))]
      · simp [List.filter_cons, hx]
      · intro a ha
        have hma : hasReading a q = true := (List.mem_filter.mp ha).2
        simp [promoteCmp, hma, hx]
      · intro b hb
        have hmb : hasReading b q = false := by
          have := (List.mem_filter.mp hb).2
          simpa using this
        simp [promoteCmp, hmb, hx]

theorem dedupConsec_length_le : ∀ l : List Int,
    (dedupConsec l).length ≤ l.length := by
  intro l
  induction l with
  | nil => simp [dedupConsec]
  | cons a rest ih =>
    cases rest with
    | nil => simp [dedupConsec]
    | cons b ys =>
      by_cases h : a = b
      · simp only [dedupConsec, if_pos h]
        exact le_trans ih (by simp)
      · simp only [dedupConsec, if_neg h]
        simp only [List.length_cons] at ih ⊢
        omega

/-- C6: the suggestion response of `get_suggestion_by_query` never
exceeds 10 entries (given a database honouring the SQL `LIMIT 10`), and
it equals the exact-reading matches of the pre-sort list, in their prior
order, followed by the non-matching entries, in their prior order. -/
theorem suggestion_cap_and_promotion (wordRows : Int → List (Str × Bool))
    (seqRows : List Int) (searchRes : Option (List Str))
    (lang : QueryLang) (q : Str)
    (hrows : seqRows.length ≤ MAX_RESULTS) :
    (getSuggestionByQuery wordRows seqRows searchRes lang q).suggestions.length
      ≤ 10 ∧
    (getSuggestionByQuery wordRows seqRows searchRes lang q).suggestions =
      (preSortPairs wordRows seqRows searchRes lang).filter
          (fun wp => hasReading wp q) ++
        (preSortPairs wordRows seqRows searchRes lang).filter
          (fun wp => !(hasReading wp q)) := by
  constructor
  · show (sortByCmp (promoteCmp q) _).length ≤ 10
    rw [length_sortByCmp]
    cases lang with
    | Japanese =>
      show (japaneseSuggestions wordRows seqRows).length ≤ 10
      unfold japaneseSuggestions loadWords
      calc (List.filterMap _ (dedupConsec seqRows)).length
          ≤ (dedupConsec seqRows).length := List.length_filterMap_le _ _
        _ ≤ seqRows.length := dedupConsec_length_le seqRows
        _ ≤ 10 := hrows
    | Foreign =>
      show (foreignSuggestions searchRes).length ≤ 10
      unfold foreignSuggestions
      cases searchRes with
      | none => simp
      | some l =>
        simp only [Option.map_some', Option.getD_some]
        exact List.length_take_le _ _
    | Undetected =>
      show (foreignSuggestions searchRes).length ≤ 10
      unfold foreignSuggestions
      cases searchRes with
      | none => simp
      | some l =>
        simp only [Option.map_some', Option.getD_some]
        exact List.length_take_le _ _
  · exact sortByCmp_promote q _

/-- Witness for C6 at a two-sequence database and a Japanese query. -/
theorem suggestion_cap_and_promotion_witness :
    (getSuggestionByQuery (fun _ => [(['a'], false)]) [1, 2] none
        QueryLang.Japanese ['a']).suggestions.length ≤ 10 ∧
    (getSuggestionByQuery (fun _ => [(['a'], false)]) [1, 2] none
        QueryLang.Japanese ['a']).suggestions =
      (preSortPairs (fun _ => [(['a'], false)]) [1, 2] none
          QueryLang.Japanese).filter (fun wp => hasReading wp ['a']) ++
        (preSortPairs (fun _ => [(['a'], false)]) [1, 2] none
          QueryLang.Japanese).filter (fun wp => !(hasReading wp ['a'])) :=
  suggestion_cap_and_promotion (fun _ => [(['a'], false)]) [1, 2] none
    QueryLang.Japanese ['a'] (by decide)

/-- The query-string normalisation of the `suggestion` endpoint (lines
125-142 of search_suggestion.rs), parameterised by the external helpers
`utils::real_string_len`, `query_parser::parse_language` and
`JapaneseExt::is_roman_letter`.  `none` models the `BadRequest` rejection
of an out-of-range length (the `unwrap` of the last character cannot
panic afterwards, since an accepted input is nonempty); the input is
modelled at character granularity, where the byte slice
`&s[..bytes - last.len_utf8()]` is `take (length - 1)`. -/
def suggestionQueryStr (realLen : Str → Nat) (parseLang : Str → QueryLang)
    (isRomanLetter : Char → Bool) (input : Str) : Option Str :=
  let ql := realLen input
  if ql < 1 ∨ ql > 37 then none
  else
    match input.getLast? with
    | none => none
    | some lastChar =>
      if parseLang input = QueryLang.Japanese ∧
          isRomanLetter lastChar = true ∧ ql > 1 then
        some (input.take (input.length - 1))
      else some input

/-- C9: for every accepted input (real length within 1..37) that the
language detector classifies as Japanese, with real length above 1 and a
final roman letter, the searched query string is the input with exactly
that final letter removed; every other accepted input is searched
unchanged. -/
theorem suggestion_strips_roman (realLen : Str → Nat)
    (parseLang : Str → QueryLang) (isRomanLetter : Char → Bool)
    (input : Str) (h1 : 1 ≤ realLen input) (h37 : realLen input ≤ 37)
    (hne : input ≠ []) :
    ∃ lastChar, input.getLast? = some lastChar ∧
      ((parseLang input = QueryLang.Japanese ∧
          isRomanLetter lastChar = true ∧ 1 < realLen input) →
        suggestionQueryStr realLen parseLang isRomanLetter input =
            some input.dropLast ∧
          input = input.dropLast ++ [lastChar]) ∧
      (¬ (parseLang input = QueryLang.Japanese ∧
          isRomanLetter lastChar = true ∧ 1 < realLen input) →
        suggestionQueryStr realLen parseLang isRomanLetter input =
          some input) := by
  have hlast : input.getLast? = some (input.getLast hne) :=
    List.getLast?_eq_getLast input hne
  have hrange : ¬ (realLen input < 1 ∨ realLen input > 37) := by omega
  refine ⟨input.getLast hne, hlast, ?_, ?_⟩
  · intro hcond
    constructor
    · simp only [suggestionQueryStr, hlast, if_neg hrange, if_pos hcond,
        List.dropLast_eq_take]
    · exact (List.dropLast_append_getLast hne).symm
  · intro hcond
    simp only [suggestionQueryStr, hlast, if_neg hrange, if_neg hcond]

/-- Witness for C9 at the input `ak` with a detector that always answers
Japanese and a roman-letter test that always answers true. -/
theorem suggestion_strips_roman_witness :
    ∃ lastChar, (['a', 'k'] : Str).getLast? = some lastChar ∧
      (((fun _ => QueryLang.Japanese) (['a', 'k'] : Str) =
            QueryLang.Japanese ∧
          (fun _ => true) lastChar = true ∧
          1 < (fun s : Str => s.length) ['a', 'k']) →
        suggestionQueryStr (fun s => s.length) (fun _ => QueryLang.Japanese)
            (fun _ => true) ['a', 'k'] =
            some (['a', 'k'] : Str).dropLast ∧
          (['a', 'k'] : Str) = (['a', 'k'] : Str).dropLast ++ [lastChar]) ∧
      (¬ ((fun _ => QueryLang.Japanese) (['a', 'k'] : Str) =
            QueryLang.Japanese ∧
          (fun _ => true) lastChar = true ∧
          1 < (fun s : Str => s.length) ['a', 'k']) →
        suggestionQueryStr (fun s => s.length) (fun _ => QueryLang.Japanese)
            (fun _ => true) ['a', 'k'] =
          some ['a', 'k']) :=
  suggestion_strips_roman (fun s => s.length) (fun _ => QueryLang.Japanese)
    (fun _ => true) ['a', 'k'] (by decide) (by decide) (by decide)

/-- Match modes used by `kun_matches_kanji`.  Modelled from the spec: the
external `SearchMode` (models/search_mode.rs is not part of the sources)
restricted to the three modes §4.5 names; their comparison semantics are
fixed by the spec's §8 examples (left-variable = prefix match of the
cleaned kun stem, right-variable = suffix match, exact = equality). -/
inductive SearchMode
  | Exact
  | LeftVariable
  | RightVariable
deriving DecidableEq, Repr

/-- Modelled from the spec: `SearchMode::str_eq` with `ign_case = false`. -/
def SearchMode.strEq : SearchMode → Str → Str → Bool
  | SearchMode.Exact, a, b => decide (a = b)
  | SearchMode.LeftVariable, a, b => b.isPrefixOf a
  | SearchMode.RightVariable, a, b => b.isSuffixOf a

/-- Rust `str::replace` with a non-empty pattern: replace every
non-overlapping occurrence left to right (fuel-structured recursion;
`s.length` fuel suffices). -/
def replaceAux (pat rep : Str) : Nat → Str → Str
  | 0, s => s
  | _ + 1, [] => []
  | fuel + 1, c :: rest =>
    if pat.isPrefixOf (c :: rest) then
      rep ++ replaceAux pat rep fuel ((c :: rest).drop pat.length)
    else c :: replaceAux pat rep fuel rest

/-- Rust `str::replace`; an empty pattern leaves the string unchanged
(the sources only call it with non-empty patterns: a single marker
character, `kun_left` plus `.`, or a kanji literal). -/
def replaceList (pat rep s : Str) : Str :=
  if pat = [] then s else replaceAux pat rep s.length s

/-- `utils::real_string_len`, modelled from the spec's "real characters":
the character count (kanji-side strings are modelled at character
granularity). -/
def realStringLen (s : Str) : Nat := s.length

/-- `kanji::format_reading` (the free function): strip the `-` and `.`
markers. -/
def format_reading (reading : Str) : Str :=
  replaceList ['.'] [] (replaceList ['-'] [] reading)

/-- `kanji::kun_len`. -/
def kun_len (kun : Str) : Nat :=
  realStringLen (format_reading kun)

/-- `kanji::kun_literal_reading`: strip `-`, then take the part before
the first `.` (`split('.').next()` cannot fail). -/
def kun_literal_reading (kun : Str) : Str :=
  (replaceList ['-'] [] kun).takeWhile (fun c => c ≠ '.')

/-- `kanji::kun_matches_kanji`. -/
def kun_matches_kanji (literal kun kana_reading kanji_reading : Str) :
    Bool :=
  let match_mode :=
    if kun.head? = some '-' then SearchMode.RightVariable
    else if kun.getLast? = some '-' ∨
        literal.isPrefixOf kanji_reading = true then
      SearchMode.LeftVariable
    else SearchMode.Exact
  let kanji_out0 := replaceList ['-'] [] kun
  let kanji_out1 :=
    if kun.contains '.' then
      let kun_left := kun.takeWhile (fun c => c ≠ '.')
      replaceList (kun_left ++ ['.']) literal kanji_out0
    else literal
  let kanji_out2 := replaceList literal (kun_literal_reading kun) kanji_out1
  match_mode.strEq kana_reading kanji_out2

/-- `Dict::len`, modelled from the spec: the candidate's display length in
real characters (dict.rs is not part of the sources). -/
def dictLen (reading : Str) : Nat :=
  realStringLen reading

/-- The qualification test of the kun-compound selection loop of
`get_kun_by_literal` (lines 558-565): a candidate with kana reading
`kana` and kanji reading `kanjiR` is pushed iff some kun reading matches
it and that kun reading's length is at most the candidate's length. -/
def candidateQualifies (literal : Str) (kuns : List Str)
    (kana kanjiR : Str) : Bool :=
  kuns.any (fun ku =>
    kun_matches_kanji literal ku kana kanjiR &&
      decide (kun_len ku ≤ dictLen kana))

/-- C7 (amended): a candidate qualifies if and only if its kana reading
is consistent with at least one kun reading under the three match modes
and that kun reading's (cleaned) length does not exceed the candidate's
display length — the inequality runs from the kun reading to the
candidate, not the other way round; the spec's §8 match examples hold. -/
theorem kunCompound_qualification (literal : Str) (kuns : List Str)
    (kana kanjiR : Str) :
    (candidateQualifies literal kuns kana kanjiR = true ↔
      ∃ ku ∈ kuns, kun_matches_kanji literal ku kana kanjiR = true ∧
        kun_len ku ≤ dictLen kana) ∧
    kun_matches_kanji ("古".toList) ("ふる-".toList) ("ふるいえ".toList)
      ("古いいえ".toList) = true ∧
    kun_matches_kanji ("新".toList) ("あたらしい".toList)
      ("あたらしい".toList) ("新しい".toList) = true := by
  refine ⟨?_, by decide, by decide⟩
  unfold candidateQualifies
  rw [List.any_eq_true]
  constructor
  · rintro ⟨ku, hku, hand⟩
    rw [Bool.and_eq_true, decide_eq_true_eq] at hand
    exact ⟨ku, hku, hand.1, hand.2⟩
  · rintro ⟨ku, hku, hm, hlen⟩
    refine ⟨ku, hku, ?_⟩
    rw [Bool.and_eq_true, decide_eq_true_eq]
    exact ⟨hm, hlen⟩

/-- Counterexample to C7 as stated: the qualifying candidate `ふるいえ`
(display length 4) for literal `古` with kun reading `ふる-` violates the
claim's direction of the length requirement — its display length exceeds
both the raw kun reading's length (3) and the cleaned kun length (2);
the code requires the opposite inequality. -/
theorem kunCompound_length_counterexample :
    candidateQualifies ("古".toList) [("ふる-".toList)] ("ふるいえ".toList)
        ("古いいえ".toList) = true ∧
    ¬ (dictLen ("ふるいえ".toList) ≤ realStringLen ("ふる-".toList)) ∧
    ¬ (dictLen ("ふるいえ".toList) ≤ kun_len ("ふる-".toList)) := by
  exact ⟨by decide, by decide, by decide⟩

end Jotoba
